import Mathlib

/-!
Verification of the Fix Validation & Patch Application engine of the
`abilyo` repository.

Strings are modelled as `List Char`.  The Span Matcher (`normalizeWs`,
`findInContent`), the interactive prompt (`askYesNo`) and the Source Patch
Writer loop (`processFiles`, `processFixes`, `patchExitCode`) are shallow
embeddings of the TypeScript in `patch.ts`; the Fix Validator
(`validateFixModel`) is modelled from the specification, since its
implementation is not part of the audited sources.
-/

namespace Abilyo

/-- The JavaScript `\s` character class (as used by `/\s+/g`, `String.trim`
and `readline` answers): ASCII whitespace, NBSP, the Unicode space
separators, line/paragraph separators and BOM. -/
def isWs (c : Char) : Bool :=
  c.toNat = 9 || c.toNat = 10 || c.toNat = 11 || c.toNat = 12 || c.toNat = 13 ||
  c.toNat = 32 || c.toNat = 160 || c.toNat = 0x1680 ||
  (0x2000 ≤ c.toNat && c.toNat ≤ 0x200a) ||
  c.toNat = 0x2028 || c.toNat = 0x2029 || c.toNat = 0x202f ||
  c.toNat = 0x205f || c.toNat = 0x3000 || c.toNat = 0xfeff

/-- Helper for `collapse`: `prev` records whether the previous character was
whitespace (i.e. we are inside a whitespace run that has already emitted its
single space). -/
def collapseAux : Bool → List Char → List Char
  | _, [] => []
  | prev, c :: cs =>
    if isWs c then
      if prev then collapseAux true cs else ' ' :: collapseAux true cs
    else c :: collapseAux false cs

/-- `s.replace(/\s+/g, " ")`: every maximal run of whitespace characters is
replaced by a single ASCII space. -/
def collapse (s : List Char) : List Char := collapseAux false s

/-- `String.prototype.trim`: strip leading and trailing whitespace. -/
def trim (s : List Char) : List Char :=
  ((s.dropWhile isWs).reverse.dropWhile isWs).reverse

/-- `normalizeWs` from `patch.ts`: `s.replace(/\s+/g, " ").trim()`. -/
def normalizeWs (s : List Char) : List Char := trim (collapse s)

/-- `haystack.slice(i, j)` for `i ≤ j`. -/
def sliceJS (l : List Char) (i j : Nat) : List Char := (l.drop i).take (j - i)

/-- The ascending index list `[s, s+1, …, s+n-1]`, the iteration space of a
`for` loop. -/
def countFrom (s : Nat) : Nat → List Nat
  | 0 => []
  | n + 1 => s :: countFrom (s + 1) n

/-- Inner loop of `findInContent`: for ascending `j`, return the first slice
`haystack.slice(i, j)` whose normalization is `nn`. -/
def scanJ (hay nn : List Char) (i : Nat) : List Nat → Option (List Char)
  | [] => none
  | j :: js =>
    let slc := sliceJS hay i j
    if normalizeWs slc = nn then some slc else scanJ hay nn i js

/-- Outer loop of `findInContent`: for ascending `i`, run the inner loop over
`j ∈ [i + nn.length, hay.length]`. -/
def scanI (hay nn : List Char) : List Nat → Option (List Char)
  | [] => none
  | i :: is' =>
    match scanJ hay nn i (countFrom (i + nn.length) (hay.length + 1 - (i + nn.length))) with
    | some s => some s
    | none => scanI hay nn is'

/-- `findInContent(haystack, needle)` from `patch.ts`:
1. verbatim occurrence → return the needle itself;
2. if `normalizeWs haystack` does not contain `normalizeWs needle`, `null`;
3. otherwise scan start offsets `i ∈ [0, haystack.length)` and end offsets
   `j ∈ [i + normalNeedle.length, haystack.length]`, returning the first
   slice that normalizes to the needle; `null` if none does. -/
def findInContent (hay need : List Char) : Option (List Char) :=
  if need <:+: hay then some need
  else
    let nn := normalizeWs need
    if nn <:+: normalizeWs hay then
      scanI hay nn (countFrom 0 hay.length)
    else none

/-! ### JavaScript `String.prototype.replace` with a string pattern

`original.replace(found, fix.suggestedFix)` replaces the first occurrence of
`found` and performs `$`-substitution on the replacement string
(`$$`, `$&`, `` $` ``, `$'`; `$n` stays literal because a string pattern has
no capture groups). -/

/-- Index of the first occurrence of `pat` in `s` (JS `String.indexOf`). -/
def indexOfFirst? : List Char → List Char → Option Nat
  | s, pat =>
    if pat <+: s then some 0
    else
      match s with
      | [] => none
      | _ :: cs => (indexOfFirst? cs pat).map (· + 1)

/-- `GetSubstitution` for a string pattern: expand `$$`, `$&`, `` $` `` and
`$'` in the replacement text (`matched` = the matched substring, `before` /
`after` = the text before / after the match). -/
def substDollar (matched before after : List Char) : List Char → List Char
  | [] => []
  | [c] => [c]
  | c :: d :: rest =>
    if c = '$' then
      if d = '$' then '$' :: substDollar matched before after rest
      else if d = '&' then matched ++ substDollar matched before after rest
      else if d = Char.ofNat 96 then before ++ substDollar matched before after rest
      else if d = Char.ofNat 39 then after ++ substDollar matched before after rest
      else c :: substDollar matched before after (d :: rest)
    else c :: substDollar matched before after (d :: rest)

/-- JS `s.replace(pat, repl)` with string arguments: replace the first
occurrence of `pat` by `repl` after `$`-substitution; `s` unchanged when
`pat` does not occur. -/
def replaceJS (s pat repl : List Char) : List Char :=
  match indexOfFirst? s pat with
  | none => s
  | some k =>
    s.take k ++ substDollar pat (s.take k) (s.drop (k + pat.length)) repl ++
      s.drop (k + pat.length)

/-! ### Interactive prompt -/

/-- `askYesNo` from `patch.ts` applied to the operator's raw answer line:
`answer.trim().toLowerCase() !== "n"`. -/
def askYesNo (answer : List Char) : Bool :=
  !((trim answer).map Char.toLower == ['n'])

/-! ### Source Patch Writer (`runPatchAgent` core loop) -/

/-- An approved fix, as read from the report's `approvedFixes` array (only
the fields the patch loop consumes). -/
structure Fix where
  currentCode : List Char
  suggestedFix : List Char
deriving DecidableEq

/-- `PatchResult` from `patch.ts` (`file` is `""` when no file matched). -/
structure PatchResult where
  fix : Fix
  file : String
  applied : Bool
  reason : Option String
deriving DecidableEq

/-- A file-system error surfaced by `fs.readFileSync` / `fs.writeFileSync`. -/
inductive FsError where
  | readFail (path : String)
  | writeFail (path : String)
deriving DecidableEq

/-- The file system: `content p = none` means reading `p` throws;
`writeFails p` means writing `p` throws. -/
structure FsState where
  content : String → Option (List Char)
  writeFails : String → Bool

/-- Overwrite one file. -/
def FsState.write (fs : FsState) (p : String) (c : List Char) : FsState :=
  { fs with content := fun q => if q = p then some c else fs.content q }

/-- The inner `for (const filePath of sourceFiles)` loop of `runPatchAgent`
for one fix.  `ans` is the stream of raw operator answer lines and `q` the
number of prompts asked so far.  Returns the updated file system, prompt
counter, and the `PatchResult` pushed inside the loop (`none` when no file
matched; the caller then pushes the not-found result).  JS note: a match is
acted on only when `findInContent` returns a *truthy* value, so an empty
string counts as no match. -/
def processFiles (fix : Fix) (files : List String) (fs : FsState) (dryRun : Bool)
    (ans : Nat → List Char) (q : Nat) :
    Except FsError (FsState × Nat × Option PatchResult) :=
  match files with
  | [] => .ok (fs, q, none)
  | f :: rest =>
    match fs.content f with
    | none => .error (.readFail f)
    | some original =>
      match findInContent original fix.currentCode with
      | none => processFiles fix rest fs dryRun ans q
      | some found =>
        if found = [] then processFiles fix rest fs dryRun ans q
        else
          let patched := replaceJS original found fix.suggestedFix
          if dryRun then
            .ok (fs, q, some ⟨fix, f, false, some "dry-run"⟩)
          else if askYesNo (ans q) then
            if fs.writeFails f then .error (.writeFail f)
            else .ok (fs.write f patched, q + 1, some ⟨fix, f, true, none⟩)
          else .ok (fs, q + 1, some ⟨fix, f, false, some "skipped by user"⟩)

/-- The outer `for` loop of `runPatchAgent` over the approved fixes.  An
uncaught exception (modelled by `.error`) aborts the whole loop, exactly as
in the source, where no per-fix `try/catch` exists. -/
def processFixes (fixes : List Fix) (files : List String) (fs : FsState)
    (dryRun : Bool) (ans : Nat → List Char) (q : Nat) :
    Except FsError (FsState × Nat × List PatchResult) :=
  match fixes with
  | [] => .ok (fs, q, [])
  | fx :: more =>
    match processFiles fx files fs dryRun ans q with
    | .error e => .error e
    | .ok (fs', q', found?) =>
      let r := found?.getD ⟨fx, "", false, some "currentCode not found in any file"⟩
      match processFixes more files fs' dryRun ans q' with
      | .error e => .error e
      | .ok (fs'', q'', rs) => .ok (fs'', q'', r :: rs)

/-- The state of the report file named on the command line. -/
inductive ReportFile where
  | missing
  | badJson
  | parsed (approvedFixes : Option (List Fix))
deriving DecidableEq

/-- Exit code of the `patch` CLI (`main` plus the early exits inside
`runPatchAgent`): missing report → `exit(1)`; `JSON.parse` throw → caught by
`main` → `exit(1)`; empty/absent `approvedFixes` → warn and `exit(0)`; no
source files → warn and `exit(0)`; an uncaught exception in the patch loop →
`exit(1)`; otherwise `exit(0)`. -/
def patchExitCode (rep : ReportFile) (files : List String) (fs : FsState)
    (dryRun : Bool) (ans : Nat → List Char) : Nat :=
  match rep with
  | .missing => 1
  | .badJson => 1
  | .parsed approved? =>
    let fixes := approved?.getD []
    if fixes.isEmpty then 0
    else if files.isEmpty then 0
    else
      match processFixes fixes files fs dryRun ans 0 with
      | .ok _ => 0
      | .error _ => 1

/-! ### Fix Validator

Modelled from the spec: `validateFix` is imported from `../mastra` in
`audit.ts` but its implementation is not among the audited sources, so the
state machine of spec §4.2 is modelled here.  The live document is a markup
assignment `E → List Char` for an element-reference type `E`; selector
resolution is the `resolved` argument; the external checker is the oracle
`check`, which may throw (`.error`).  An injection failure is modelled by
`injectFails`.  Exceptions are caught and downgraded to `MANUAL`
(`passed = false`), and the revert is attempted from `ERROR` as well, so the
function is total: it never throws. -/

/-- `ValidationResult` from the spec's data model. -/
structure ValidationResult where
  method : String
  passed : Bool
  reason : Option String
deriving DecidableEq

/-- Replace the markup of one element of the live document. -/
def updateDoc {E : Type} [DecidableEq E] (doc : E → List Char) (r : E)
    (v : List Char) : E → List Char :=
  fun e => if e = r then v else doc e

/-- Modelled from the spec: `validateFix(selector, proposedCode,
originalCode)` of spec §4.2.  Unresolved selector → `MANUAL` with
`method = "skipped"`, `reason = "element not found"`, no mutation.  Otherwise
inject `proposed` onto the resolved element, run the checker, and restore
`original` onto the same element reference on every path, including the
exception paths. -/
def validateFixModel {E V : Type} [DecidableEq E] (resolved : Option E)
    (doc : E → List Char) (proposed original : List Char)
    (injectFails : Option String)
    (check : (E → List Char) → Except String (List V)) (vMatches : V → Bool)
    (vDesc : V → String) : ValidationResult × (E → List Char) :=
  match resolved with
  | none => (⟨"skipped", false, some "element not found"⟩, doc)
  | some ref =>
    match injectFails with
    | some msg => (⟨"dom-injection", false, some msg⟩, updateDoc doc ref original)
    | none =>
      let doc1 := updateDoc doc ref proposed
      match check doc1 with
      | .error msg =>
          (⟨"dom-injection", false, some msg⟩, updateDoc doc1 ref original)
      | .ok viols =>
        let doc2 := updateDoc doc1 ref original
        match viols.find? vMatches with
        | none => (⟨"dom-injection", true, none⟩, doc2)
        | some v => (⟨"dom-injection", false, some (vDesc v)⟩, doc2)

/-- Whether a string starts with a whitespace character. -/
def headWs (l : List Char) : Bool :=
  match l.head? with
  | some c => isWs c
  | none => false

/-- Whether a string ends with a whitespace character. -/
def lastWs (l : List Char) : Bool :=
  match l.getLast? with
  | some c => isWs c
  | none => false

/-- A candidate file that is readable but yields no truthy match for the
fix's `currentCode` (a JS falsy result: `null` or `""`). -/
def noTruthyMatch (fs : FsState) (fix : Fix) (f : String) : Prop :=
  ∃ c, fs.content f = some c ∧
    (findInContent c fix.currentCode = none ∨
      findInContent c fix.currentCode = some [])

/-- A candidate file with a truthy match for the fix's `currentCode`. -/
def hasTruthyMatch (fs : FsState) (fix : Fix) (f : String) : Prop :=
  ∃ c s, fs.content f = some c ∧ findInContent c fix.currentCode = some s ∧
    s ≠ []

/-- A pair of offsets `i ≤ j ≤ hay.length` whose slice normalizes to `nn`. -/
def MatchAt (hay nn : List Char) (i j : Nat) : Prop :=
  i ≤ j ∧ j ≤ hay.length ∧ normalizeWs (sliceJS hay i j) = nn

/-! ### Sample fixtures used in concrete instantiations -/

/-- A sample fix: replace `"a"` by `"c"`. -/
def sampleFix : Fix := ⟨['a'], ['c']⟩

/-- A sample fix whose replacement contains the JS substitution pattern
`$&`. -/
def dollarFix : Fix := ⟨['a'], ['$', '&', '$', '&']⟩

/-- A one-file file system: `index.html` contains `"ab"`; writes succeed. -/
def sampleFs : FsState :=
  ⟨fun p => if p = "index.html" then some ['a', 'b'] else none, fun _ => false⟩

/-- Two files, enumerated `a.html` then `b.html`, with identical content
`"ab"`. -/
def twoFileFs : FsState :=
  ⟨fun p => if p = "a.html" then some ['a', 'b']
    else if p = "b.html" then some ['a', 'b'] else none, fun _ => false⟩

/-- A file system on which every read throws. -/
def deadFs : FsState := ⟨fun _ => none, fun _ => true⟩

/-- The `PatchResult` produced for `sampleFix` on `sampleFs` in dry-run
mode. -/
def sampleDryResult : PatchResult :=
  ⟨sampleFix, "index.html", false, some "dry-run"⟩

/-! ## Theorems -/

theorem updateDoc_self {E : Type} [DecidableEq E] (doc : E → List Char)
    (r : E) (v : List Char) : updateDoc doc r v r = v := by
  simp [updateDoc]

/-- C1: after `validateFix(selector, proposed, original)` returns, the
element resolved from the selector has markup `original`, whatever `passed`
is, on every code path — including an injection failure and a checker
exception; when the selector does not resolve, the document is untouched. -/
theorem validateFix_restores_original {E V : Type} [DecidableEq E]
    (resolved : Option E) (doc : E → List Char) (proposed original : List Char)
    (injectFails : Option String)
    (check : (E → List Char) → Except String (List V)) (vMatches : V → Bool)
    (vDesc : V → String) :
    (∀ ref, resolved = some ref →
      (validateFixModel resolved doc proposed original injectFails check
        vMatches vDesc).2 ref = original) ∧
    (resolved = none →
      (validateFixModel resolved doc proposed original injectFails check
        vMatches vDesc).2 = doc) := by
  constructor
  · intro ref href
    subst href
    cases injectFails with
    | some msg => simp [validateFixModel, updateDoc_self]
    | none =>
      simp only [validateFixModel]
      cases check (updateDoc doc ref proposed) with
      | error msg => simp [updateDoc_self]
      | ok viols =>
        rcases hf : viols.find? vMatches with _ | v <;> simp [hf, updateDoc_self]
  · intro href
    subst href
    rfl

/-- Witness for C1 at a concrete instantiation. -/
theorem validateFix_restores_original_witness :
    (validateFixModel (E := Unit) (V := Unit) (some ()) (fun _ => ['x'])
      ['p'] ['o'] none (fun _ => .ok []) (fun _ => true) (fun _ => "v")).2 ()
      = ['o'] :=
  (validateFix_restores_original (some ()) (fun _ => ['x']) ['p'] ['o'] none
    (fun _ => .ok []) (fun _ => true) (fun _ => "v")).1 () rfl

/-- C9: on an unresolvable selector, `validateFix` returns
`{method: "skipped", passed: false, reason: "element not found"}` and leaves
the live document untouched (the model is a total function: every exception
of the real code is caught and downgraded, so it never throws). -/
theorem validateFix_unresolved_skipped {E V : Type} [DecidableEq E]
    (doc : E → List Char) (proposed original : List Char)
    (injectFails : Option String)
    (check : (E → List Char) → Except String (List V)) (vMatches : V → Bool)
    (vDesc : V → String) :
    validateFixModel none doc proposed original injectFails check vMatches
      vDesc = (⟨"skipped", false, some "element not found"⟩, doc) := rfl

/-- C10: `askYesNo` treats every answer other than exactly `"n"` (after
trimming and lowercasing) as approval: an empty line approves, and so does
`"no"`; in the live patch loop an approval triggers the file write. -/
theorem askYesNo_default_approves :
    (∀ a, askYesNo a = true ↔ ¬ (trim a).map Char.toLower = ['n']) ∧
    askYesNo [] = true ∧
    askYesNo ['n', 'o'] = true ∧
    askYesNo ['n'] = false ∧
    askYesNo [' ', 'N', ' '] = false ∧
    (∃ out, processFiles sampleFix ["index.html"] sampleFs false
        (fun _ => ['n', 'o']) 0 = .ok out ∧
      out.2.2 = some ⟨sampleFix, "index.html", true, none⟩ ∧
      out.1.content "index.html" = some ['c', 'b']) := by
  refine ⟨fun a => ?_, by decide, by decide, by decide, by decide, ?_⟩
  · simp [askYesNo]
  · exact ⟨_, rfl, by decide, by decide⟩

theorem processFiles_dryRun (fix : Fix) (files : List String) (fs : FsState)
    (ans : Nat → List Char) (q : Nat) :
    ∀ out, processFiles fix files fs true ans q = .ok out →
      out.1 = fs ∧ out.2.1 = q ∧
        (out.2.2 = none ∨ ∃ f, out.2.2 = some ⟨fix, f, false, some "dry-run"⟩) := by
  induction files with
  | nil =>
    intro out h
    simp only [processFiles] at h
    cases h
    exact ⟨rfl, rfl, Or.inl rfl⟩
  | cons f rest ih =>
    intro out h
    rcases hc : fs.content f with _ | original
    · simp only [processFiles, hc] at h
      cases h
    · rcases hfind : findInContent original fix.currentCode with _ | found
      · simp only [processFiles, hc, hfind] at h
        exact ih out h
      · by_cases hfe : found = []
        · simp only [processFiles, hc, hfind] at h
          rw [if_pos hfe] at h
          exact ih out h
        · simp only [processFiles, hc, hfind] at h
          rw [if_neg hfe, if_true] at h
          cases h
          exact ⟨rfl, rfl, Or.inr ⟨f, rfl⟩⟩

/-- C6: with `--dry-run`, `runPatchAgent` never writes or modifies any file:
the file system after the loop is the one before it, and every
`PatchResult` has `applied = false`, with reason `"dry-run"` for matched
fixes and the not-found reason otherwise. -/
theorem dryRun_never_writes (fixes : List Fix) (files : List String)
    (fs : FsState) (ans : Nat → List Char) (q : Nat) :
    ∀ out, processFixes fixes files fs true ans q = .ok out →
      out.1 = fs ∧ ∀ r ∈ out.2.2, r.applied = false ∧
        (r.reason = some "dry-run" ∨
          r.reason = some "currentCode not found in any file") := by
  induction fixes generalizing fs q with
  | nil =>
    intro out h
    cases h
    exact ⟨rfl, by simp⟩
  | cons fx more ih =>
    intro out h
    rcases hp : processFiles fx files fs true ans q with e | ⟨fs', q', found?⟩
    · simp only [processFixes, hp] at h
      cases h
    · obtain ⟨hfs', _, hfound⟩ := processFiles_dryRun fx files fs ans q _ hp
      rcases hr : processFixes more files fs' true ans q' with e | ⟨fs'', q'', rs⟩
      · simp only [processFixes, hp, hr] at h
        cases h
      · simp only [processFixes, hp, hr] at h
        cases h
        obtain ⟨hfs'', hrs⟩ := ih fs' q' _ hr
        refine ⟨by simp_all, ?_⟩
        intro r hmem
        rw [List.mem_cons] at hmem
        rcases hmem with rfl | hmem
        · rcases hfound with hf | ⟨f, hf⟩ <;> simp_all [Option.getD]
        · exact hrs r hmem

/-- Witness for C6 on a concrete dry run. -/
theorem dryRun_never_writes_witness :
    (sampleFs, 0, [sampleDryResult]).1 = sampleFs ∧
      sampleDryResult.applied = false ∧
      (sampleDryResult.reason = some "dry-run" ∨
        sampleDryResult.reason = some "currentCode not found in any file") :=
  ⟨(dryRun_never_writes [sampleFix] ["index.html"] sampleFs (fun _ => []) 0
      _ rfl).1,
    (dryRun_never_writes [sampleFix] ["index.html"] sampleFs (fun _ => []) 0
      _ rfl).2 _ (by simp [sampleDryResult])⟩

/-- C5: per fix, the first enumerated file with a (truthy) match wins: files
after it are neither searched nor modified — the run is the same as if they
were absent — and every file other than the matched one keeps its content,
so at most one file is ever written for an Issue. -/
theorem first_match_wins (fix : Fix) (pre post : List String) (f₀ : String)
    (fs : FsState) (dr : Bool) (ans : Nat → List Char) (q : Nat)
    (hpre : ∀ f ∈ pre, noTruthyMatch fs fix f)
    (hf : hasTruthyMatch fs fix f₀) :
    processFiles fix (pre ++ f₀ :: post) fs dr ans q
      = processFiles fix (pre ++ [f₀]) fs dr ans q ∧
    ∀ out, processFiles fix (pre ++ f₀ :: post) fs dr ans q = .ok out →
      ∀ p, p ≠ f₀ → out.1.content p = fs.content p := by
  induction pre with
  | nil =>
    obtain ⟨c, s, hc, hfind, hs⟩ := hf
    constructor
    · simp [processFiles, hc, hfind, hs]
    · intro out h p hp
      simp only [List.nil_append, processFiles, hc, hfind, if_neg hs] at h
      rcases dr with _ | _
      · simp only [Bool.false_eq_true, if_false] at h
        by_cases hyes : askYesNo (ans q)
        · rw [if_pos hyes] at h
          by_cases hw : fs.writeFails f₀
          · rw [if_pos hw] at h; cases h
          · rw [if_neg hw] at h
            cases h
            simp [FsState.write, hp]
        · rw [if_neg hyes] at h
          cases h
          rfl
      · simp only [if_true] at h
        cases h
        rfl
  | cons g pre' ih =>
    have hg := hpre g (by simp)
    obtain ⟨c, hc, hor⟩ := hg
    have hpre' : ∀ f ∈ pre', noTruthyMatch fs fix f :=
      fun f hf' => hpre f (by simp [hf'])
    have ih' := ih hpre'
    constructor
    · rcases hor with hn | hn <;>
        simp [processFiles, hc, hn, ih'.1]
    · intro out h p hp
      rcases hor with hn | hn <;>
        simp only [List.cons_append, processFiles, hc, hn, if_pos rfl] at h
      · exact ih'.2 out h p hp
      · exact ih'.2 out h p hp

/-- Witness for C5: two files with identical content; only the first is
touched and the second file's content is untouched. -/
theorem first_match_wins_witness :
    processFiles sampleFix ([] ++ "a.html" :: ["b.html"]) twoFileFs false
        (fun _ => []) 0
      = processFiles sampleFix ([] ++ ["a.html"]) twoFileFs false
        (fun _ => []) 0 ∧
    (twoFileFs.write "a.html" ['c', 'b'], 1,
        some (⟨sampleFix, "a.html", true, none⟩ : PatchResult)).1.content
        "b.html"
      = twoFileFs.content "b.html" :=
  ⟨(first_match_wins sampleFix [] ["b.html"] "a.html" twoFileFs false
      (fun _ => []) 0 (by intro f hf; cases hf)
      ⟨['a', 'b'], ['a'], rfl, by decide, by decide⟩).1,
    (first_match_wins sampleFix [] ["b.html"] "a.html" twoFileFs false
      (fun _ => []) 0 (by intro f hf; cases hf)
      ⟨['a', 'b'], ['a'], rfl, by decide, by decide⟩).2 _ rfl "b.html"
      (by decide)⟩

theorem sliceJS_isInfix (l : List Char) (i j : Nat) : sliceJS l i j <:+: l :=
  (List.take_prefix (j - i) (l.drop i)).isInfix.trans
    (l.drop_suffix i).isInfix

theorem scanJ_some_isInfix (hay nn : List Char) (i : Nat) (js : List Nat)
    (s : List Char) (h : scanJ hay nn i js = some s) : s <:+: hay := by
  induction js with
  | nil => cases h
  | cons j js' ih =>
    simp only [scanJ] at h
    split at h
    · cases h
      exact sliceJS_isInfix hay i j
    · exact ih h

theorem scanI_some_isInfix (hay nn : List Char) (is' : List Nat)
    (s : List Char) (h : scanI hay nn is' = some s) : s <:+: hay := by
  induction is' with
  | nil => cases h
  | cons i rest ih =>
    simp only [scanI] at h
    rcases hj : scanJ hay nn i
        (countFrom (i + nn.length) (hay.length + 1 - (i + nn.length))) with _ | t
    · rw [hj] at h
      exact ih h
    · rw [hj] at h
      cases h
      exact scanJ_some_isInfix hay nn i _ _ hj

theorem findInContent_some_isInfix (hay need s : List Char)
    (h : findInContent hay need = some s) : s <:+: hay := by
  simp only [findInContent] at h
  split at h
  · cases h
    assumption
  · split at h
    · exact scanI_some_isInfix hay _ _ s h
    · cases h

theorem substDollar_of_not_mem (m b a repl : List Char) (h : '$' ∉ repl) :
    substDollar m b a repl = repl := by
  induction repl with
  | nil => rfl
  | cons c rest ih =>
    have hc : ¬ c = '$' := fun hc => h (by simp [hc])
    have hrest : '$' ∉ rest := fun hr => h (by simp [hr])
    cases rest with
    | nil => rfl
    | cons d rest' => simp [substDollar, hc, ih hrest]

theorem indexOfFirst?_decomp (s pat : List Char) (k : Nat)
    (h : indexOfFirst? s pat = some k) :
    s = s.take k ++ pat ++ s.drop (k + pat.length) := by
  induction s generalizing k with
  | nil =>
    simp only [indexOfFirst?] at h
    split at h
    · cases h
      rename_i hp
      obtain ⟨t, ht⟩ := hp
      simp at ht
      simp [← ht.1]
    · cases h
  | cons c cs ih =>
    simp only [indexOfFirst?] at h
    split at h
    · cases h
      rename_i hp
      obtain ⟨t, ht⟩ := hp
      rw [List.take_zero, List.nil_append, Nat.zero_add, ← ht,
        List.drop_left]
    · rcases hk : indexOfFirst? cs pat with _ | k'
      · rw [hk] at h
        cases h
      · rw [hk] at h
        cases h
        have := ih k' hk
        calc c :: cs = c :: (cs.take k' ++ pat ++ cs.drop (k' + pat.length)) := by
              rw [← this]
          _ = (c :: cs).take (k' + 1) ++ pat ++ (c :: cs).drop (k' + 1 + pat.length) := by
              simp only [List.take_succ_cons, List.cons_append]
              have : k' + 1 + pat.length = (k' + pat.length) + 1 := by omega
              rw [this, List.drop_succ_cons]

theorem infix_cons_elim {x : List Char} {c : Char} {l : List Char}
    (h : x <:+: c :: l) : x <+: c :: l ∨ x <:+: l := by
  obtain ⟨a, b, hab⟩ := h
  cases a with
  | nil => exact Or.inl ⟨b, by simpa using hab⟩
  | cons a₀ a' =>
    right
    cases hab
    exact ⟨a', b, rfl⟩

theorem indexOfFirst?_isSome (s pat : List Char) (h : pat <:+: s) :
    ∃ k, indexOfFirst? s pat = some k := by
  induction s with
  | nil =>
    obtain ⟨a, b, hab⟩ := h
    rw [List.append_eq_nil, List.append_eq_nil] at hab
    refine ⟨0, ?_⟩
    simp [indexOfFirst?, hab.1.2, List.nil_prefix]
  | cons c cs ih =>
    by_cases hp : pat <+: c :: cs
    · exact ⟨0, by simp [indexOfFirst?, hp]⟩
    · rcases infix_cons_elim h with h' | h'
      · exact absurd h' hp
      · obtain ⟨k', hk'⟩ := ih h'
        exact ⟨k' + 1, by simp [indexOfFirst?, hp, hk']⟩

theorem replaceJS_decomp (s pat repl : List Char) (hinf : pat <:+: s)
    (hnd : '$' ∉ repl) :
    ∃ a b, s = a ++ pat ++ b ∧ replaceJS s pat repl = a ++ repl ++ b := by
  obtain ⟨k, hk⟩ := indexOfFirst?_isSome s pat hinf
  refine ⟨s.take k, s.drop (k + pat.length), indexOfFirst?_decomp s pat k hk, ?_⟩
  simp [replaceJS, hk, substDollar_of_not_mem _ _ _ _ hnd]

/-- Characterization of an applied live-mode `PatchResult`: the written
file's new content and the frame condition on every other file. -/
theorem processFiles_applied (fix : Fix) (files : List String) (fs : FsState)
    (ans : Nat → List Char) (q : Nat) (fs' : FsState) (q' : Nat)
    (r : PatchResult)
    (hrun : processFiles fix files fs false ans q = .ok (fs', q', some r))
    (happ : r.applied = true) :
    ∃ original found,
      fs.content r.file = some original ∧
      findInContent original fix.currentCode = some found ∧ found ≠ [] ∧
      fs'.content r.file = some (replaceJS original found fix.suggestedFix) ∧
      ∀ p, p ≠ r.file → fs'.content p = fs.content p := by
  induction files generalizing q with
  | nil => cases hrun
  | cons f rest ih =>
    rcases hc : fs.content f with _ | original
    · simp only [processFiles, hc] at hrun
      cases hrun
    · rcases hfind : findInContent original fix.currentCode with _ | found
      · simp only [processFiles, hc, hfind] at hrun
        exact ih q hrun
      · by_cases hfe : found = []
        · simp only [processFiles, hc, hfind] at hrun
          rw [if_pos hfe] at hrun
          exact ih q hrun
        · simp only [processFiles, hc, hfind] at hrun
          rw [if_neg hfe] at hrun
          simp only [Bool.false_eq_true, if_false] at hrun
          by_cases hyes : askYesNo (ans q)
          · rw [if_pos hyes] at hrun
            by_cases hw : fs.writeFails f
            · rw [if_pos hw] at hrun
              cases hrun
            · rw [if_neg hw] at hrun
              cases hrun
              refine ⟨original, found, hc, hfind, hfe, ?_, ?_⟩
              · simp [FsState.write]
              · intro p hp
                simp [FsState.write, hp]
          · rw [if_neg hyes] at hrun
            cases hrun
            cases happ

/-- C4 (amended): in live mode, a confirmed applied fix writes exactly the
matched file, whose new content is the old content with the matched span
replaced via JS `String.replace` semantics; the replacement text is
`suggestedFix` verbatim whenever it contains no `'$'` character (JS
`$`-substitution applies otherwise), and no other file changes. -/
theorem live_confirmed_write (fix : Fix) (files : List String) (fs : FsState)
    (ans : Nat → List Char) (q : Nat) (fs' : FsState) (q' : Nat)
    (r : PatchResult)
    (hrun : processFiles fix files fs false ans q = .ok (fs', q', some r))
    (happ : r.applied = true) :
    ∃ original found,
      fs.content r.file = some original ∧
      findInContent original fix.currentCode = some found ∧ found ≠ [] ∧
      fs'.content r.file = some (replaceJS original found fix.suggestedFix) ∧
      (∀ p, p ≠ r.file → fs'.content p = fs.content p) ∧
      ('$' ∉ fix.suggestedFix →
        ∃ a b, original = a ++ found ++ b ∧
          replaceJS original found fix.suggestedFix
            = a ++ fix.suggestedFix ++ b) := by
  obtain ⟨original, found, hc, hfind, hfe, hnew, hframe⟩ :=
    processFiles_applied fix files fs ans q fs' q' r hrun happ
  refine ⟨original, found, hc, hfind, hfe, hnew, hframe, fun hnd => ?_⟩
  exact replaceJS_decomp original found fix.suggestedFix
    (findInContent_some_isInfix original fix.currentCode found hfind) hnd

/-- Witness for C4 on a concrete confirmed live run. -/
theorem live_confirmed_write_witness :
    ∃ original found,
      sampleFs.content "index.html" = some original ∧
      findInContent original sampleFix.currentCode = some found ∧ found ≠ [] ∧
      (sampleFs.write "index.html" ['c', 'b']).content "index.html"
        = some (replaceJS original found sampleFix.suggestedFix) ∧
      (∀ p, p ≠ "index.html" →
        (sampleFs.write "index.html" ['c', 'b']).content p
          = sampleFs.content p) ∧
      ('$' ∉ sampleFix.suggestedFix →
        ∃ a b, original = a ++ found ++ b ∧
          replaceJS original found sampleFix.suggestedFix
            = a ++ sampleFix.suggestedFix ++ b) :=
  live_confirmed_write sampleFix ["index.html"] sampleFs (fun _ => []) 0
    (sampleFs.write "index.html" ['c', 'b']) 1
    ⟨sampleFix, "index.html", true, none⟩ rfl rfl

/-- C4 counterexample: with `suggestedFix = "$&$&"` the written content is
`"aab"`, not the verbatim-insertion result `"$&$&b"`: JS `replace` expands
`$&` to the matched span, so the claim's "inserted verbatim and unaltered"
fails. -/
theorem verbatim_insertion_fails :
    processFiles dollarFix ["index.html"] sampleFs false (fun _ => []) 0
      = .ok (sampleFs.write "index.html" ['a', 'a', 'b'], 1,
          some ⟨dollarFix, "index.html", true, none⟩) ∧
    findInContent ['a', 'b'] dollarFix.currentCode = some ['a'] ∧
    replaceJS ['a', 'b'] ['a'] dollarFix.suggestedFix = ['a', 'a', 'b'] ∧
    ['a', 'b'] = [] ++ ['a'] ++ ['b'] ∧
    [] ++ dollarFix.suggestedFix ++ ['b'] ≠ ['a', 'a', 'b'] :=
  ⟨rfl, by decide, by decide, by decide, by decide⟩

/-- Auxiliary for C7/C8: with no source files, the patch loop always
completes (each fix is reported not-found). -/
theorem processFixes_nil_files (fixes : List Fix) (fs : FsState) (dr : Bool)
    (ans : Nat → List Char) (q : Nat) :
    ∃ out, processFixes fixes [] fs dr ans q = .ok out := by
  induction fixes generalizing q with
  | nil => exact ⟨(fs, q, []), rfl⟩
  | cons fx more ih =>
    obtain ⟨out, hout⟩ := ih q
    refine ⟨(out.1, out.2.1,
      (⟨fx, "", false, some "currentCode not found in any file"⟩ :
        PatchResult) :: out.2.2), ?_⟩
    simp only [processFixes, processFiles, hout, Option.getD]

/-- C7 (amended): the patch CLI exits 0 on every completed run — including
zero applied fixes and including a report that lacks an `approvedFixes`
list, which warns and exits 0 — and exits 1 when the report file is
missing, when it is unreadable, or when an uncaught I/O error aborts the
patch loop. -/
theorem patch_cli_exit_codes (files : List String) (fs : FsState) (dr : Bool)
    (ans : Nat → List Char) :
    patchExitCode .missing files fs dr ans = 1 ∧
    patchExitCode .badJson files fs dr ans = 1 ∧
    (∀ approved?, approved?.getD [] = [] →
      patchExitCode (.parsed approved?) files fs dr ans = 0) ∧
    (∀ fixes out, processFixes fixes files fs dr ans 0 = .ok out →
      patchExitCode (.parsed (some fixes)) files fs dr ans = 0) ∧
    (∀ fixes e, processFixes fixes files fs dr ans 0 = .error e →
      patchExitCode (.parsed (some fixes)) files fs dr ans = 1) := by
  refine ⟨rfl, rfl, ?_, ?_, ?_⟩
  · intro approved? hempty
    simp [patchExitCode, hempty]
  · intro fixes out hok
    cases fixes with
    | nil => rfl
    | cons fx more =>
      cases files with
      | nil => rfl
      | cons f fl => simp [patchExitCode, hok]
  · intro fixes e herr
    cases fixes with
    | nil => cases herr
    | cons fx more =>
      cases files with
      | nil =>
        obtain ⟨out, hout⟩ := processFixes_nil_files (fx :: more) fs dr ans 0
        rw [hout] at herr
        cases herr
      | cons f fl => simp [patchExitCode, herr]

/-- Witness for C7 on a concrete completed dry run. -/
theorem patch_cli_exit_codes_witness :
    patchExitCode (.parsed (some [sampleFix])) ["index.html"] sampleFs true
      (fun _ => []) = 0 :=
  (patch_cli_exit_codes ["index.html"] sampleFs true (fun _ => [])).2.2.2.1
    [sampleFix] (sampleFs, 0,
      [⟨sampleFix, "index.html", false, some "dry-run"⟩]) rfl

/-- C7 counterexample: a report that parses but lacks `approvedFixes` makes
the CLI warn and exit 0, not 1 as claimed. -/
theorem missing_approved_list_exits_zero :
    patchExitCode (.parsed none) ["index.html"] sampleFs false (fun _ => [])
        = 0 ∧
      patchExitCode (.parsed none) ["index.html"] sampleFs false
        (fun _ => []) ≠ 1 := by
  constructor <;> decide

/-- C8 (amended): a file read or write failure while patching one Issue
aborts the whole run — the per-Issue loop has no `try/catch`, so the
exception propagates, no `PatchResult` is produced for any remaining Issue,
and `main` exits with code 1. -/
theorem io_failure_aborts_run (fx : Fix) (more : List Fix)
    (files : List String) (fs : FsState) (dr : Bool) (ans : Nat → List Char)
    (e : FsError) (h : processFiles fx files fs dr ans 0 = .error e) :
    processFixes (fx :: more) files fs dr ans 0 = .error e ∧
    patchExitCode (.parsed (some (fx :: more))) files fs dr ans = 1 := by
  have habort : processFixes (fx :: more) files fs dr ans 0 = .error e := by
    simp only [processFixes, h]
  refine ⟨habort, ?_⟩
  cases files with
  | nil =>
    simp only [processFiles] at h
    cases h
  | cons f fl => simp [patchExitCode, habort]

/-- Witness for C8: one unreadable file aborts a two-fix run. -/
theorem io_failure_aborts_run_witness :
    processFixes [sampleFix, dollarFix] ["f.html"] deadFs false (fun _ => []) 0
        = .error (.readFail "f.html") ∧
      patchExitCode (.parsed (some [sampleFix, dollarFix])) ["f.html"] deadFs
        false (fun _ => []) = 1 :=
  io_failure_aborts_run sampleFix [dollarFix] ["f.html"] deadFs false
    (fun _ => []) (.readFail "f.html") rfl

/-- C8 counterexample: the claim demands that processing continue past a
per-Issue I/O failure with a `PatchResult` for every remaining Issue, but
the run aborts with the propagated read error and produces no results. -/
theorem read_failure_aborts_run_cex :
    processFixes [sampleFix, dollarFix] ["f.html"] deadFs false (fun _ => []) 0
      = .error (.readFail "f.html") := rfl

/-! ### Span Matcher lemmas: the `collapse` calculus -/

theorem collapseAux_true_eq (cs : List Char) :
    collapseAux true cs = collapse (cs.dropWhile isWs) := by
  induction cs with
  | nil => rfl
  | cons d ds ih =>
    by_cases hd : isWs d
    · simp only [collapseAux, hd, if_true, List.dropWhile_cons, ih]
    · simp [collapseAux, collapse, hd, List.dropWhile_cons]

theorem collapse_cons_ws {c : Char} (cs : List Char) (h : isWs c = true) :
    collapse (c :: cs) = ' ' :: collapse (cs.dropWhile isWs) := by
  simp only [collapse, collapseAux, h, if_true, Bool.false_eq_true, if_false]
  rw [collapseAux_true_eq]
  rfl

theorem collapse_cons_neg {c : Char} (cs : List Char) (h : isWs c = false) :
    collapse (c :: cs) = c :: collapse cs := by
  simp only [collapse, collapseAux, h, Bool.false_eq_true, if_false]

theorem collapseAux_length_le (b : Bool) (s : List Char) :
    (collapseAux b s).length ≤ s.length := by
  induction s generalizing b with
  | nil => exact Nat.le_refl 0
  | cons c cs ih =>
    by_cases hc : isWs c
    · have h1 := ih true
      cases b <;> simp [collapseAux, hc] <;> omega
    · have h2 := ih false
      simp [collapseAux, hc]
      omega

theorem collapse_length_le (s : List Char) : (collapse s).length ≤ s.length :=
  collapseAux_length_le false s

theorem collapse_ne_nil {s : List Char} (h : s ≠ []) : collapse s ≠ [] := by
  cases s with
  | nil => exact absurd rfl h
  | cons c cs =>
    by_cases hc : isWs c
    · rw [collapse_cons_ws cs hc]
      exact List.cons_ne_nil _ _
    · rw [collapse_cons_neg cs (by simpa using hc)]
      exact List.cons_ne_nil _ _

/-! ### dropWhile / head / last utilities -/

theorem dropWhile_head?_false :
    ∀ {s : List Char} {c : Char}, (s.dropWhile isWs).head? = some c →
      isWs c = false := by
  intro s
  induction s with
  | nil => intro c h; cases h
  | cons d ds ih =>
    intro c h
    by_cases hd : isWs d
    · rw [List.dropWhile_cons, if_pos hd] at h
      exact ih h
    · rw [List.dropWhile_cons, if_neg hd] at h
      cases h
      simpa using hd

theorem dropWhile_eq_self_of_head (s : List Char)
    (h : ∀ c, s.head? = some c → isWs c = false) : s.dropWhile isWs = s := by
  cases s with
  | nil => rfl
  | cons c cs =>
    rw [List.dropWhile_cons, if_neg]
    simp [h c rfl]

theorem head?_append_left {x : List Char} (y : List Char) (h : x ≠ []) :
    (x ++ y).head? = x.head? := by
  cases x with
  | nil => exact absurd rfl h
  | cons a l => rfl

theorem getLast?_eq_none_of : ∀ {x : List Char}, x.getLast? = none → x = [] := by
  intro x h
  cases x with
  | nil => rfl
  | cons a l => simp [List.getLast?_eq_getLast] at h

theorem getLast?_append_right (a : List Char) {b : List Char} (h : b ≠ []) :
    (a ++ b).getLast? = b.getLast? := by
  rw [List.getLast?_append]
  rcases hb : b.getLast? with _ | c
  · exact absurd (getLast?_eq_none_of hb) h
  · rfl

theorem getLast?_cons_of_ne {c : Char} {x : List Char} (h : x ≠ []) :
    (c :: x).getLast? = x.getLast? := getLast?_append_right [c] h

theorem mem_all_of_dropWhile_nil {l : List Char}
    (h : l.dropWhile isWs = []) : ∀ a ∈ l, isWs a = true :=
  List.dropWhile_eq_nil_iff.mp h

theorem dropWhile_append_all {l v : List Char}
    (hall : ∀ a ∈ l, isWs a = true)
    (hhd : ∀ c, v.head? = some c → isWs c = false) :
    (l ++ v).dropWhile isWs = v := by
  induction l with
  | nil => exact dropWhile_eq_self_of_head v hhd
  | cons a l' ih =>
    rw [List.cons_append, List.dropWhile_cons, if_pos (hall a (by simp))]
    exact ih (fun b hb => hall b (by simp [hb]))

/-! ### trim lemmas -/

theorem prefix_of_suffix_reverse {x y : List Char} (h : x <:+ y) :
    x.reverse <+: y.reverse := by
  obtain ⟨t, rfl⟩ := h
  exact ⟨t.reverse, by simp⟩

theorem suffix_of_prefix_reverse {x y : List Char} (h : x <+: y) :
    x.reverse <:+ y.reverse := by
  obtain ⟨t, rfl⟩ := h
  exact ⟨t.reverse, by simp⟩

theorem isInfix_reverse {x y : List Char} (h : x <:+: y) :
    x.reverse <:+: y.reverse := by
  obtain ⟨a, b, rfl⟩ := h
  exact ⟨b.reverse, a.reverse, by simp⟩

theorem dropWhile_isSuffix (s : List Char) : s.dropWhile isWs <:+ s :=
  ⟨s.takeWhile isWs, s.takeWhile_append_dropWhile isWs⟩

theorem trim_isPrefix_dropWhile (s : List Char) :
    trim s <+: s.dropWhile isWs := by
  have h2 : (s.dropWhile isWs).reverse.dropWhile isWs <:+
      (s.dropWhile isWs).reverse := dropWhile_isSuffix _
  have := prefix_of_suffix_reverse h2
  rwa [List.reverse_reverse] at this

theorem trim_isInfix (s : List Char) : trim s <:+: s := by
  obtain ⟨t, ht⟩ := trim_isPrefix_dropWhile s
  obtain ⟨w, hw⟩ := dropWhile_isSuffix s
  refine ⟨w, t, ?_⟩
  rw [List.append_assoc, ht]
  exact hw

theorem trim_head?_false (s : List Char) :
    ∀ c, (trim s).head? = some c → isWs c = false := by
  intro c h
  have hne : trim s ≠ [] := by
    intro hnil
    rw [hnil] at h
    cases h
  have hpre := trim_isPrefix_dropWhile s
  have : (trim s).head? = (s.dropWhile isWs).head? := by
    obtain ⟨t, ht⟩ := hpre
    rw [← ht, head?_append_left t hne]
  rw [this] at h
  exact dropWhile_head?_false h

theorem trim_getLast?_false (s : List Char) :
    ∀ c, (trim s).getLast? = some c → isWs c = false := by
  intro c h
  rw [show trim s = ((s.dropWhile isWs).reverse.dropWhile isWs).reverse from rfl,
    List.getLast?_reverse] at h
  exact dropWhile_head?_false h

theorem trim_eq_self (s : List Char)
    (hh : ∀ c, s.head? = some c → isWs c = false)
    (hl : ∀ c, s.getLast? = some c → isWs c = false) : trim s = s := by
  have h1 : s.dropWhile isWs = s := dropWhile_eq_self_of_head s hh
  have h2 : s.reverse.dropWhile isWs = s.reverse := by
    refine dropWhile_eq_self_of_head _ ?_
    intro c hc
    rw [List.head?_reverse] at hc
    exact hl c hc
  rw [trim, h1, h2, List.reverse_reverse]

theorem infix_elim_cons {x : List Char} {c : Char} {l : List Char}
    (h : x <:+: c :: l) : x <+: c :: l ∨ x <:+: l := by
  obtain ⟨a, b, hab⟩ := h
  cases a with
  | nil => exact Or.inl ⟨b, by simpa using hab⟩
  | cons a₀ a' =>
    cases hab
    exact Or.inr ⟨a', b, rfl⟩

theorem isInfix_dropWhile {x s : List Char}
    (hh : ∀ c, x.head? = some c → isWs c = false) (h : x <:+: s) :
    x <:+: s.dropWhile isWs := by
  induction s with
  | nil =>
    obtain ⟨a, b, hab⟩ := h
    rw [List.append_eq_nil, List.append_eq_nil] at hab
    rw [hab.1.2]
    exact List.nil_infix
  | cons c cs ih =>
    by_cases hc : isWs c
    · rw [List.dropWhile_cons, if_pos hc]
      rcases infix_elim_cons h with h' | h'
      · cases x with
        | nil => exact List.nil_infix
        | cons x₀ x' =>
          obtain ⟨t, ht⟩ := h'
          rw [List.cons_append, List.cons.injEq] at ht
          have hx := hh x₀ rfl
          rw [ht.1] at hx
          simp [hx] at hc
      · exact ih h'
    · rwa [List.dropWhile_cons, if_neg hc]

theorem isInfix_trim {x s : List Char}
    (hh : ∀ c, x.head? = some c → isWs c = false)
    (hl : ∀ c, x.getLast? = some c → isWs c = false) (h : x <:+: s) :
    x <:+: trim s := by
  have h1 : x <:+: s.dropWhile isWs := isInfix_dropWhile hh h
  have h2 : x.reverse <:+: (s.dropWhile isWs).reverse := isInfix_reverse h1
  have h3 : x.reverse <:+: (s.dropWhile isWs).reverse.dropWhile isWs := by
    refine isInfix_dropWhile ?_ h2
    intro c hc
    rw [List.head?_reverse] at hc
    exact hl c hc
  have h4 := isInfix_reverse h3
  rwa [List.reverse_reverse] at h4

/-! ### Collapse and append -/

theorem lastWs_cons_of_ne {c : Char} {u : List Char} (h : u ≠ []) :
    lastWs (c :: u) = lastWs u := by
  rw [lastWs, lastWs, getLast?_cons_of_ne h]

theorem lastWs_dropWhile {u : List Char} (h : u.dropWhile isWs ≠ []) :
    lastWs (u.dropWhile isWs) = lastWs u := by
  conv_rhs => rw [lastWs, ← u.takeWhile_append_dropWhile isWs]
  rw [getLast?_append_right _ h, lastWs]

theorem headWs_false_elim {v : List Char} (h : headWs v = false) :
    ∀ c, v.head? = some c → isWs c = false := by
  intro c hc
  rw [headWs, hc] at h
  exact h

theorem mem_of_getLast?_eq : ∀ {l : List Char} {d : Char},
    l.getLast? = some d → d ∈ l := by
  intro l
  induction l with
  | nil => intro d h; cases h
  | cons a t ih =>
    intro d h
    cases t with
    | nil =>
      simp only [List.getLast?_singleton, Option.some.injEq] at h
      simp [h]
    | cons b t' =>
      rw [getLast?_cons_of_ne (List.cons_ne_nil b t')] at h
      exact List.mem_cons.mpr (Or.inr (ih h))

theorem lastWs_true_of_all_ws {c : Char} {u : List Char} (hc : isWs c = true)
    (hall : ∀ a ∈ u, isWs a = true) : lastWs (c :: u) = true := by
  rcases hlast : (c :: u).getLast? with _ | d
  · exact absurd (getLast?_eq_none_of hlast) (List.cons_ne_nil c u)
  · rw [lastWs, hlast]
    have : d ∈ c :: u := mem_of_getLast?_eq hlast
    rcases List.mem_cons.mp this with rfl | hd
    · exact hc
    · exact hall d hd

theorem dropWhile_append_of_ne {u v : List Char} (h : u.dropWhile isWs ≠ []) :
    (u ++ v).dropWhile isWs = u.dropWhile isWs ++ v := by
  rw [List.dropWhile_append]
  rcases hdw : u.dropWhile isWs with _ | ⟨d, dr⟩
  · exact absurd hdw h
  · simp

theorem dropWhile_append_of_nil {u v : List Char} (h : u.dropWhile isWs = []) :
    (u ++ v).dropWhile isWs = v.dropWhile isWs := by
  rw [List.dropWhile_append, h]
  simp

theorem collapse_append_disj :
    ∀ n (u v : List Char), u.length ≤ n →
      (lastWs u = false ∨ headWs v = false) →
      collapse (u ++ v) = collapse u ++ collapse v := by
  intro n
  induction n with
  | zero =>
    intro u v hu _
    rw [List.length_eq_zero.mp (Nat.le_zero.mp hu)]
    rfl
  | succ n ih =>
    intro u v hu hdisj
    cases u with
    | nil => rfl
    | cons c u' =>
      by_cases hc : isWs c
      · rw [List.cons_append, collapse_cons_ws _ hc, collapse_cons_ws _ hc]
        rcases hdw : u'.dropWhile isWs with _ | ⟨d, dr⟩
        · -- u' is all whitespace, so the boundary forces headWs v = false
          have hall := mem_all_of_dropWhile_nil hdw
          have hlast : lastWs (c :: u') = true := lastWs_true_of_all_ws hc hall
          have hv : headWs v = false := by
            rcases hdisj with h | h
            · rw [hlast] at h
              cases h
            · exact h
          rw [dropWhile_append_of_nil hdw,
            dropWhile_eq_self_of_head v (headWs_false_elim hv)]
          rfl
        · -- u' contains a non-whitespace character
          have hne : u'.dropWhile isWs ≠ [] := by
            rw [hdw]; exact List.cons_ne_nil _ _
          have hu'ne : u' ≠ [] := by
            intro h
            rw [h] at hdw
            cases hdw
          rw [dropWhile_append_of_ne hne]
          have hlen : (u'.dropWhile isWs).length ≤ n := by
            have h1 : (u'.dropWhile isWs).length ≤ u'.length :=
              (List.dropWhile_sublist isWs).length_le
            have h2 : u'.length + 1 ≤ n + 1 := by simpa using hu
            omega
          have hcond : lastWs (u'.dropWhile isWs) = false ∨ headWs v = false := by
            rcases hdisj with h | h
            · left
              rw [lastWs_dropWhile hne]
              rw [lastWs_cons_of_ne hu'ne] at h
              exact h
            · exact Or.inr h
          rw [ih _ v hlen hcond, hdw]
          rfl
      · have hc' : isWs c = false := by simpa using hc
        rw [List.cons_append, collapse_cons_neg _ hc', collapse_cons_neg _ hc']
        have hlen : u'.length ≤ n := by
          have : u'.length + 1 ≤ n + 1 := by simpa using hu
          omega
        have hcond : lastWs u' = false ∨ headWs v = false := by
          rcases hdisj with h | h
          · cases u' with
            | nil => exact Or.inl rfl
            | cons d du =>
              exact Or.inl (by rwa [lastWs_cons_of_ne (List.cons_ne_nil d du)] at h)
          · exact Or.inr h
        rw [ih _ v hlen hcond, List.cons_append]

theorem lastWs_reverse (l : List Char) : lastWs l.reverse = headWs l := by
  rw [lastWs, headWs, List.getLast?_reverse]

theorem headWs_reverse (l : List Char) : headWs l.reverse = lastWs l := by
  rw [headWs, lastWs, List.head?_reverse]

theorem collapse_append_wsws :
    ∀ n (u v : List Char), u.length ≤ n → lastWs u = true → headWs v = true →
      collapse (u ++ v) = collapse u ++ collapse (v.dropWhile isWs) := by
  intro n
  induction n with
  | zero =>
    intro u v hu hlast _
    rw [List.length_eq_zero.mp (Nat.le_zero.mp hu)] at hlast
    cases hlast
  | succ n ih =>
    intro u v hu hlast hhead
    cases u with
    | nil => cases hlast
    | cons c u' =>
      cases u' with
      | nil =>
        have hc : isWs c = true := by simpa [lastWs] using hlast
        rw [List.singleton_append, collapse_cons_ws _ hc, collapse_cons_ws _ hc]
        rfl
      | cons d du =>
        by_cases hc : isWs c
        · rw [List.cons_append, collapse_cons_ws _ hc, collapse_cons_ws _ hc]
          rcases hdw : (d :: du).dropWhile isWs with _ | ⟨e, er⟩
          · rw [dropWhile_append_of_nil hdw]
            rfl
          · have hne : (d :: du).dropWhile isWs ≠ [] := by
              rw [hdw]; exact List.cons_ne_nil _ _
            rw [dropWhile_append_of_ne hne]
            have hlen : ((d :: du).dropWhile isWs).length ≤ n := by
              have h1 : ((d :: du).dropWhile isWs).length ≤ (d :: du).length :=
                (List.dropWhile_sublist isWs).length_le
              have h2 : (c :: d :: du).length ≤ n + 1 := hu
              simp only [List.length_cons] at h1 h2 ⊢
              omega
            have hl2 : lastWs ((d :: du).dropWhile isWs) = true := by
              rw [lastWs_dropWhile hne]
              rwa [lastWs_cons_of_ne (List.cons_ne_nil d du)] at hlast
            rw [ih _ v hlen hl2 hhead, hdw]
            rfl
        · have hc' : isWs c = false := by simpa using hc
          rw [List.cons_append, collapse_cons_neg _ hc', collapse_cons_neg _ hc']
          have hlen : (d :: du).length ≤ n := by
            have : (c :: d :: du).length ≤ n + 1 := hu
            simp only [List.length_cons] at this ⊢
            omega
          have hl2 : lastWs (d :: du) = true := by
            rwa [lastWs_cons_of_ne (List.cons_ne_nil d du)] at hlast
          rw [ih _ v hlen hl2 hhead]
          rfl

theorem collapse_reverse :
    ∀ n (s : List Char), s.length ≤ n →
      collapse s.reverse = (collapse s).reverse := by
  intro n
  induction n with
  | zero =>
    intro s hs
    rw [List.length_eq_zero.mp (Nat.le_zero.mp hs)]
    rfl
  | succ n ih =>
    intro s hs
    cases s with
    | nil => rfl
    | cons c cs =>
      have hcs : cs.length ≤ n := by
        have : (c :: cs).length ≤ n + 1 := hs
        simp only [List.length_cons] at this
        omega
      cases cs with
      | nil =>
        show collapse [c] = (collapse [c]).reverse
        by_cases hc : isWs c
        · rw [collapse_cons_ws _ hc]
          rfl
        · rw [collapse_cons_neg _ (by simpa using hc)]
          rfl
      | cons d cs' =>
        rw [List.reverse_cons]
        by_cases hc : isWs c
        · by_cases hd : isWs d
          · -- both boundary characters whitespace: the runs merge
            rw [collapse_append_wsws ((d :: cs').reverse).length
                ((d :: cs').reverse) [c] le_rfl
                (by rw [lastWs_reverse, headWs]; simp [hd])
                (by rw [headWs]; simp [hc])]
            rw [show ([c].dropWhile isWs) = [] by simp [hc]]
            rw [ih _ hcs, collapse_cons_ws (d :: cs') hc,
              collapse_cons_ws cs' hd, List.dropWhile_cons, if_pos hd]
            rw [show collapse ([] : List Char) = [] from rfl, List.append_nil]
          · -- c whitespace, head of cs not: no merge
            rw [collapse_append_disj ((d :: cs').reverse).length
                ((d :: cs').reverse) [c] le_rfl
                (Or.inl (by rw [lastWs_reverse, headWs]; simp [hd]))]
            rw [ih _ hcs]
            have h1 : collapse [c] = [' '] := by
              rw [collapse_cons_ws [] hc]
              rfl
            rw [h1, collapse_cons_ws (d :: cs') hc, List.dropWhile_cons,
              if_neg hd]
            simp
        · -- c not whitespace: no merge
          have hc' : isWs c = false := by simpa using hc
          rw [collapse_append_disj ((d :: cs').reverse).length
              ((d :: cs').reverse) [c] le_rfl
              (Or.inr (by rw [headWs]; simp [hc']))]
          rw [ih _ hcs]
          have h1 : collapse [c] = [c] := by
            rw [collapse_cons_neg [] hc']
            rfl
          rw [h1, collapse_cons_neg (d :: cs') hc']
          simp

/-! ### Pulling a canonical span back through `collapse` -/

theorem collapse_pullback_pre :
    ∀ n (s x : List Char), s.length ≤ n →
      (∀ c, x.getLast? = some c → isWs c = false) →
      x <+: collapse s → ∃ v, v <+: s ∧ collapse v = x := by
  intro n
  induction n with
  | zero =>
    intro s x hs _ hpre
    rw [List.length_eq_zero.mp (Nat.le_zero.mp hs)] at hpre ⊢
    obtain ⟨t, ht⟩ := hpre
    rw [show collapse ([] : List Char) = [] from rfl, List.append_eq_nil] at ht
    exact ⟨[], List.nil_prefix, by rw [ht.1]; rfl⟩
  | succ n ih =>
    intro s x hs hlast hpre
    cases x with
    | nil => exact ⟨[], List.nil_prefix, rfl⟩
    | cons x₀ x' =>
      cases s with
      | nil =>
        obtain ⟨t, ht⟩ := hpre
        rw [show collapse ([] : List Char) = [] from rfl, List.cons_append]
          at ht
        cases ht
      | cons c cs =>
        have hcslen : cs.length ≤ n := by
          have : (c :: cs).length ≤ n + 1 := hs
          simp only [List.length_cons] at this
          omega
        by_cases hcws : isWs c
        · rw [collapse_cons_ws cs hcws] at hpre
          obtain ⟨t, ht⟩ := hpre
          rw [List.cons_append, List.cons.injEq] at ht
          obtain ⟨he, ht2⟩ := ht
          cases x' with
          | nil =>
            have h0 := hlast x₀ (by simp)
            rw [he] at h0
            exact absurd h0 (by decide)
          | cons y ys =>
            have hdlen : (cs.dropWhile isWs).length ≤ n := by
              have := (List.dropWhile_sublist (l := cs) isWs).length_le
              omega
            have hlast' : ∀ e, (y :: ys).getLast? = some e → isWs e = false := by
              intro e he2
              apply hlast
              rw [getLast?_cons_of_ne (List.cons_ne_nil y ys)]
              exact he2
            obtain ⟨v', hv'p, hv'c⟩ :=
              ih (cs.dropWhile isWs) (y :: ys) hdlen hlast' ⟨t, ht2⟩
            have hv'ne : v' ≠ [] := by
              intro h0
              rw [h0] at hv'c
              exact List.cons_ne_nil y ys hv'c.symm
            have hv'head : ∀ e, v'.head? = some e → isWs e = false := by
              intro e he2
              apply dropWhile_head?_false (s := cs)
              obtain ⟨t3, ht4⟩ := hv'p
              rw [← ht4, head?_append_left _ hv'ne]
              exact he2
            refine ⟨c :: (cs.takeWhile isWs ++ v'), ?_, ?_⟩
            · obtain ⟨t2, ht3⟩ := hv'p
              refine ⟨t2, ?_⟩
              rw [List.cons_append, List.append_assoc, ht3,
                cs.takeWhile_append_dropWhile]
            · rw [collapse_cons_ws _ hcws,
                dropWhile_append_all
                  (fun a ha => List.mem_takeWhile_imp ha) hv'head,
                hv'c, he]
        · have hc' : isWs c = false := by simpa using hcws
          rw [collapse_cons_neg cs hc'] at hpre
          obtain ⟨t, ht⟩ := hpre
          rw [List.cons_append, List.cons.injEq] at ht
          obtain ⟨he, ht2⟩ := ht
          cases x' with
          | nil =>
            refine ⟨[c], ⟨cs, rfl⟩, ?_⟩
            rw [collapse_cons_neg [] hc', he]
            rfl
          | cons y ys =>
            have hlast' : ∀ e, (y :: ys).getLast? = some e → isWs e = false := by
              intro e he2
              apply hlast
              rw [getLast?_cons_of_ne (List.cons_ne_nil y ys)]
              exact he2
            obtain ⟨v', hv'p, hv'c⟩ := ih cs (y :: ys) hcslen hlast' ⟨t, ht2⟩
            obtain ⟨t2, ht3⟩ := hv'p
            refine ⟨c :: v', ⟨t2, by rw [List.cons_append, ht3]⟩, ?_⟩
            rw [collapse_cons_neg v' hc', hv'c, he]

theorem isInfix_append_left (s : List Char) {x t : List Char}
    (h : x <:+: t) : x <:+: s ++ t := by
  obtain ⟨a, b, rfl⟩ := h
  exact ⟨s ++ a, b, by simp⟩

theorem isInfix_append_right {x t : List Char} (z : List Char)
    (h : x <:+: t) : x <:+: t ++ z := by
  obtain ⟨a, b, rfl⟩ := h
  exact ⟨a, b ++ z, by simp⟩

theorem collapse_pullback (s x : List Char) (hne : x ≠ [])
    (hh : ∀ c, x.head? = some c → isWs c = false)
    (hl : ∀ c, x.getLast? = some c → isWs c = false)
    (hinf : x <:+: collapse s) : ∃ v, v <:+: s ∧ collapse v = x := by
  obtain ⟨a, b, hab⟩ := hinf
  have hlast1 : ∀ c, (a ++ x).getLast? = some c → isWs c = false := by
    intro c hc
    rw [getLast?_append_right a hne] at hc
    exact hl c hc
  obtain ⟨v₀, hv₀p, hv₀c⟩ :=
    collapse_pullback_pre s.length s (a ++ x) le_rfl hlast1 ⟨b, hab⟩
  have hsfx : x <:+ collapse v₀ := ⟨a, hv₀c.symm⟩
  have hpre2 : x.reverse <+: (collapse v₀).reverse :=
    prefix_of_suffix_reverse hsfx
  rw [← collapse_reverse v₀.length v₀ le_rfl] at hpre2
  have hlast2 : ∀ c, x.reverse.getLast? = some c → isWs c = false := by
    intro c hc
    rw [List.getLast?_reverse] at hc
    exact hh c hc
  obtain ⟨u, hup, huc⟩ :=
    collapse_pullback_pre v₀.reverse.length v₀.reverse x.reverse le_rfl
      hlast2 hpre2
  refine ⟨u.reverse, ?_, ?_⟩
  · have h1 : u.reverse <:+ v₀ := by
      have h2 := suffix_of_prefix_reverse hup
      rwa [List.reverse_reverse] at h2
    obtain ⟨w, hw⟩ := h1
    obtain ⟨t2, ht2⟩ := hv₀p
    exact ⟨w, t2, by rw [← ht2, ← hw]⟩
  · rw [collapse_reverse u.length u le_rfl, huc, List.reverse_reverse]

/-- Verbatim containment is preserved by whitespace normalization:
`N <:+: H → normalizeWs N <:+: normalizeWs H`. -/
theorem normalizeWs_infix_mono {N H : List Char} (h : N <:+: H) :
    normalizeWs N <:+: normalizeWs H := by
  by_cases hnil : normalizeWs N = []
  · rw [hnil]
    exact List.nil_infix
  obtain ⟨a, b, hab⟩ := h
  have hh : ∀ c, (normalizeWs N).head? = some c → isWs c = false :=
    trim_head?_false (collapse N)
  have hl : ∀ c, (normalizeWs N).getLast? = some c → isWs c = false :=
    trim_getLast?_false (collapse N)
  have h1 : normalizeWs N <:+: collapse N := trim_isInfix (collapse N)
  have h2 : normalizeWs N <:+: collapse (N ++ b) := by
    by_cases hcase : lastWs N = true ∧ headWs b = true
    · rw [collapse_append_wsws N.length N b le_rfl hcase.1 hcase.2]
      exact isInfix_append_right _ h1
    · have hdisj : lastWs N = false ∨ headWs b = false := by
        rcases hN : lastWs N with _ | _ <;> rcases hB : headWs b with _ | _ <;>
          simp_all
      rw [collapse_append_disj N.length N b le_rfl hdisj]
      exact isInfix_append_right _ h1
  have h3 : normalizeWs N <:+: collapse (a ++ (N ++ b)) := by
    by_cases hcase : lastWs a = true ∧ headWs (N ++ b) = true
    · rw [collapse_append_wsws a.length a (N ++ b) le_rfl hcase.1 hcase.2]
      rcases hnb : N ++ b with _ | ⟨d, t⟩
      · rw [List.append_eq_nil] at hnb
        rw [hnb.1] at hnil
        exact absurd rfl hnil
      · have hd : isWs d = true := by
          have h5 := hcase.2
          rw [hnb, headWs] at h5
          simpa using h5
        have hcol : collapse (N ++ b) = ' ' :: collapse (t.dropWhile isWs) := by
          rw [hnb, collapse_cons_ws t hd]
        rw [List.dropWhile_cons, if_pos hd]
        have h2' : normalizeWs N <:+: ' ' :: collapse (t.dropWhile isWs) := by
          rw [← hcol]
          exact h2
        have hstrip : normalizeWs N <:+: collapse (t.dropWhile isWs) := by
          rcases infix_elim_cons h2' with hp | hi
          · rcases hx : normalizeWs N with _ | ⟨e, es⟩
            · exact absurd hx hnil
            · obtain ⟨t4, ht4⟩ := hp
              rw [hx, List.cons_append, List.cons.injEq] at ht4
              have he := hh e (by rw [hx]; rfl)
              rw [ht4.1] at he
              exact absurd he (by decide)
          · exact hi
        exact isInfix_append_left _ hstrip
    · have hdisj : lastWs a = false ∨ headWs (N ++ b) = false := by
        rcases hN : lastWs a with _ | _ <;>
          rcases hB : headWs (N ++ b) with _ | _ <;> simp_all
      rw [collapse_append_disj a.length a (N ++ b) le_rfl hdisj]
      exact isInfix_append_left _ h2
  have h4 : normalizeWs N <:+: collapse H := by
    rw [← List.append_assoc, hab] at h3
    exact h3
  exact isInfix_trim hh hl h4

/-- Every whitespace-normalized occurrence is realized by a concrete
nonempty span of the haystack. -/
theorem normalized_pullback (H N : List Char) (hne : normalizeWs N ≠ [])
    (hocc : normalizeWs N <:+: normalizeWs H) :
    ∃ v, v <:+: H ∧ normalizeWs v = normalizeWs N ∧ v ≠ [] := by
  have h1 : normalizeWs N <:+: collapse H :=
    hocc.trans (trim_isInfix (collapse H))
  have hh : ∀ c, (normalizeWs N).head? = some c → isWs c = false :=
    trim_head?_false (collapse N)
  have hl : ∀ c, (normalizeWs N).getLast? = some c → isWs c = false :=
    trim_getLast?_false (collapse N)
  obtain ⟨v, hvi, hvc⟩ := collapse_pullback H (normalizeWs N) hne hh hl h1
  refine ⟨v, hvi, ?_, ?_⟩
  · show trim (collapse v) = normalizeWs N
    rw [hvc]
    exact trim_eq_self (normalizeWs N) hh hl
  · intro h0
    rw [h0] at hvc
    exact hne hvc.symm

/-! ### The scanning loops of `findInContent` -/

theorem scanJ_countFrom_none (hay nn : List Char) (i : Nat) :
    ∀ n s, scanJ hay nn i (countFrom s n) = none →
      ∀ j, s ≤ j → j < s + n → normalizeWs (sliceJS hay i j) ≠ nn := by
  intro n
  induction n with
  | zero =>
    intro s _ j h1 h2
    omega
  | succ n ih =>
    intro s h j h1 h2
    simp only [countFrom, scanJ] at h
    split at h
    · cases h
    · rename_i hne
      by_cases hj : j = s
      · rw [hj]
        exact hne
      · exact ih (s + 1) h j (by omega) (by omega)

theorem scanJ_countFrom_some (hay nn : List Char) (i : Nat) :
    ∀ n s t, scanJ hay nn i (countFrom s n) = some t →
      ∃ j, s ≤ j ∧ j < s + n ∧ t = sliceJS hay i j ∧ normalizeWs t = nn ∧
        ∀ j', s ≤ j' → j' < j → normalizeWs (sliceJS hay i j') ≠ nn := by
  intro n
  induction n with
  | zero => intro s t h; cases h
  | succ n ih =>
    intro s t h
    simp only [countFrom, scanJ] at h
    split at h
    · rename_i hm
      cases h
      exact ⟨s, le_rfl, by omega, rfl, hm,
        fun j' h1 h2 => absurd h2 (by omega)⟩
    · rename_i hm
      obtain ⟨j, hj1, hj2, hj3, hj4, hj5⟩ := ih (s + 1) t h
      refine ⟨j, by omega, by omega, hj3, hj4, ?_⟩
      intro j' h1 h2
      rcases Nat.eq_or_lt_of_le h1 with rfl | h1'
      · exact hm
      · exact hj5 j' (by omega) h2

theorem scanI_countFrom_none (hay nn : List Char) :
    ∀ n s, scanI hay nn (countFrom s n) = none →
      ∀ i, s ≤ i → i < s + n →
        scanJ hay nn i (countFrom (i + nn.length)
          (hay.length + 1 - (i + nn.length))) = none := by
  intro n
  induction n with
  | zero =>
    intro s _ i h1 h2
    omega
  | succ n ih =>
    intro s h i h1 h2
    simp only [countFrom, scanI] at h
    rcases hj : scanJ hay nn s (countFrom (s + nn.length)
        (hay.length + 1 - (s + nn.length))) with _ | t
    · rw [hj] at h
      by_cases hi : i = s
      · rw [hi]
        exact hj
      · exact ih (s + 1) h i (by omega) (by omega)
    · rw [hj] at h
      cases h

theorem scanI_countFrom_some (hay nn : List Char) :
    ∀ n s t, scanI hay nn (countFrom s n) = some t →
      ∃ i, s ≤ i ∧ i < s + n ∧
        scanJ hay nn i (countFrom (i + nn.length)
          (hay.length + 1 - (i + nn.length))) = some t ∧
        ∀ i', s ≤ i' → i' < i →
          scanJ hay nn i' (countFrom (i' + nn.length)
            (hay.length + 1 - (i' + nn.length))) = none := by
  intro n
  induction n with
  | zero => intro s t h; cases h
  | succ n ih =>
    intro s t h
    simp only [countFrom, scanI] at h
    rcases hj : scanJ hay nn s (countFrom (s + nn.length)
        (hay.length + 1 - (s + nn.length))) with _ | t'
    · rw [hj] at h
      obtain ⟨i, hi1, hi2, hi3, hi4⟩ := ih (s + 1) t h
      refine ⟨i, by omega, by omega, hi3, ?_⟩
      intro i' h1 h2
      rcases Nat.eq_or_lt_of_le h1 with rfl | h1'
      · exact hj
      · exact hi4 i' (by omega) h2
    · rw [hj] at h
      cases h
      exact ⟨s, le_rfl, by omega, hj, fun i' h1 h2 => absurd h2 (by omega)⟩

/-! ### Length bounds and completeness of the scan -/

theorem trim_length_le (s : List Char) : (trim s).length ≤ s.length := by
  have h1 := (List.dropWhile_sublist (l := s) isWs).length_le
  have h2 :=
    (List.dropWhile_sublist (l := (s.dropWhile isWs).reverse) isWs).length_le
  simp only [trim, List.length_reverse] at h2 ⊢
  omega

theorem normalizeWs_length_le (s : List Char) :
    (normalizeWs s).length ≤ s.length :=
  le_trans (trim_length_le (collapse s)) (collapse_length_le s)

theorem sliceJS_length_le (l : List Char) (i j : Nat) :
    (sliceJS l i j).length ≤ j - i := by
  simp only [sliceJS, List.length_take]
  omega

theorem MatchAt.sub_le {hay nn : List Char} {i j : Nat}
    (h : MatchAt hay nn i j) : i + nn.length ≤ j := by
  obtain ⟨h1, h2, h3⟩ := h
  have h4 := normalizeWs_length_le (sliceJS hay i j)
  rw [h3] at h4
  have h5 := sliceJS_length_le hay i j
  omega

theorem scan_complete (hay nn : List Char) {i j : Nat}
    (hm : MatchAt hay nn i j) (hi : i < hay.length) :
    scanI hay nn (countFrom 0 hay.length) ≠ none := by
  intro hnone
  have hJ := scanI_countFrom_none hay nn hay.length 0 hnone i (by omega)
    (by omega)
  have hle : i + nn.length ≤ j := hm.sub_le
  have hjle : j ≤ hay.length := hm.2.1
  exact scanJ_countFrom_none hay nn i _ _ hJ j hle (by omega) hm.2.2

theorem eq_nil_of_infix_nil {x : List Char} (h : x <:+: ([] : List Char)) :
    x = [] := by
  obtain ⟨a, b, hab⟩ := h
  rw [List.append_eq_nil, List.append_eq_nil] at hab
  exact hab.1.2

/-- Under a normalized occurrence, the scan of `findInContent` always
succeeds on a nonempty haystack. -/
theorem scan_succeeds (H N : List Char) (hH : H ≠ [])
    (hocc : normalizeWs N <:+: normalizeWs H) :
    scanI H (normalizeWs N) (countFrom 0 H.length) ≠ none := by
  by_cases hne : normalizeWs N = []
  · refine scan_complete H (normalizeWs N) (i := 0) (j := 0)
      ⟨le_rfl, Nat.zero_le _, ?_⟩ (List.length_pos.mpr hH)
    rw [hne]
    rfl
  · obtain ⟨v, hvi, hvn, hvne⟩ := normalized_pullback H N hne hocc
    obtain ⟨a, b, hab⟩ := hvi
    have hvlen : 0 < v.length := List.length_pos.mpr hvne
    have hlen : H.length = a.length + v.length + b.length := by
      rw [← hab]
      simp [List.length_append]
      omega
    have hslice : sliceJS H a.length (a.length + v.length) = v := by
      rw [sliceJS, ← hab, List.append_assoc, List.drop_left]
      have h6 : a.length + v.length - a.length = v.length := by omega
      rw [h6, List.take_left]
    refine scan_complete H (normalizeWs N)
      (i := a.length) (j := a.length + v.length)
      ⟨by omega, by omega, ?_⟩ (by omega)
    rw [hslice, hvn]

/-- C2 (amended): `findInContent H N` returns `null` exactly when
`normalizeWs H` does not contain `normalizeWs N` — except in the degenerate
case of an empty haystack with a nonempty all-whitespace needle (excluded by
the hypothesis), where the scan loop body never runs and `null` is returned
although the normalized containment holds. -/
theorem findInContent_none_iff (H N : List Char)
    (hdeg : H = [] → N = [] ∨ normalizeWs N ≠ []) :
    findInContent H N = none ↔ ¬ normalizeWs N <:+: normalizeWs H := by
  constructor
  · intro hnone hocc
    by_cases hverb : N <:+: H
    · simp only [findInContent, if_pos hverb] at hnone
      cases hnone
    · simp only [findInContent, if_neg hverb] at hnone
      rw [if_pos hocc] at hnone
      have hH : H ≠ [] := by
        intro h0
        subst h0
        rcases hdeg rfl with rfl | hne
        · exact hverb List.nil_infix
        · exact hne (eq_nil_of_infix_nil hocc)
      exact scan_succeeds H N hH hocc hnone
  · intro hnocc
    by_cases hverb : N <:+: H
    · exact absurd (normalizeWs_infix_mono hverb) hnocc
    · simp only [findInContent, if_neg hverb, if_neg hnocc]

/-- Witness for C2 on a concrete non-occurring needle. -/
theorem findInContent_none_iff_witness :
    findInContent ['a', 'b'] ['z'] = none :=
  (findInContent_none_iff ['a', 'b'] ['z']
    (fun h => by cases h)).mpr (by decide)

/-- C2 counterexample: for the empty haystack and the needle `" "`,
`findInContent` returns `null` although `normalizeWs("")` contains
`normalizeWs(" ")` (both are empty), because the outer loop
`for i in [0, haystack.length)` never runs. -/
theorem findInContent_none_iff_fails :
    ¬ (findInContent [] [' '] = none ↔
        ¬ normalizeWs [' '] <:+: normalizeWs ([] : List Char)) := by
  decide

/-- C3 (amended): on a nonempty haystack, when the needle has no verbatim
occurrence but a whitespace-normalized one, `findInContent` returns the
span with the lexicographically least `(i, j)` among all matching offset
pairs (earliest start, then shortest span); in particular the
`"<div>  Hello   World</div>"` scenario returns the whole haystack. -/
theorem findInContent_first_span :
    (∀ H N : List Char, H ≠ [] → ¬ N <:+: H →
      normalizeWs N <:+: normalizeWs H →
      ∃ i j, findInContent H N = some (sliceJS H i j) ∧
        MatchAt H (normalizeWs N) i j ∧
        ∀ i' j', MatchAt H (normalizeWs N) i' j' →
          i < i' ∨ (i = i' ∧ j ≤ j')) ∧
    findInContent "<div>  Hello   World</div>".toList
        "<div> Hello World</div>".toList
      = some "<div>  Hello   World</div>".toList := by
  constructor
  · intro H N hH hverb hocc
    have hred : findInContent H N
        = scanI H (normalizeWs N) (countFrom 0 H.length) := by
      simp only [findInContent, if_neg hverb]
      rw [if_pos hocc]
    rcases hs : scanI H (normalizeWs N) (countFrom 0 H.length) with _ | t
    · exact absurd hs (scan_succeeds H N hH hocc)
    obtain ⟨i, hi0, hilen, hJ, hImin⟩ :=
      scanI_countFrom_some H (normalizeWs N) H.length 0 t hs
    obtain ⟨j, hj1, hj2, hj3, hj4, hJmin⟩ :=
      scanJ_countFrom_some H (normalizeWs N) i _ _ t hJ
    have hjlen : j ≤ H.length := by omega
    refine ⟨i, j, ?_, ⟨by omega, hjlen, by rw [← hj3]; exact hj4⟩, ?_⟩
    · rw [hred, hs, hj3]
    · intro i' j' hm'
      have hle' : i' + (normalizeWs N).length ≤ j' := hm'.sub_le
      have hj'len : j' ≤ H.length := hm'.2.1
      rcases Nat.lt_trichotomy i i' with h | h | h
      · exact Or.inl h
      · refine Or.inr ⟨h, ?_⟩
        by_contra hjj
        push_neg at hjj
        subst h
        exact hJmin j' (by omega) hjj hm'.2.2
      · exfalso
        have hJ' := hImin i' (by omega) h
        exact scanJ_countFrom_none H (normalizeWs N) i' _ _ hJ' j' hle'
          (by omega) hm'.2.2
  · decide

/-- Witness for C3 at the spec's scenario. -/
theorem findInContent_first_span_witness :
    ∃ i j,
      findInContent "<div>  Hello   World</div>".toList
          "<div> Hello World</div>".toList
        = some (sliceJS "<div>  Hello   World</div>".toList i j) ∧
      MatchAt "<div>  Hello   World</div>".toList
        (normalizeWs "<div> Hello World</div>".toList) i j ∧
      ∀ i' j', MatchAt "<div>  Hello   World</div>".toList
          (normalizeWs "<div> Hello World</div>".toList) i' j' →
        i < i' ∨ (i = i' ∧ j ≤ j') :=
  findInContent_first_span.1 "<div>  Hello   World</div>".toList
    "<div> Hello World</div>".toList (by decide) (by decide) (by decide)

/-- C3 counterexample: at `H = ""`, `N = " "` the hypotheses of the claim
hold — no verbatim occurrence, and a normalized occurrence exists, realized
by the empty span `H[0:0]` — yet `findInContent` returns `null` rather than
that span. -/
theorem findInContent_first_span_fails :
    ¬ ([' '] <:+: ([] : List Char)) ∧
    (normalizeWs [' '] <:+: normalizeWs ([] : List Char)) ∧
    MatchAt [] (normalizeWs [' ']) 0 0 ∧
    findInContent [] [' '] = none := by
  refine ⟨by decide, by decide, ⟨le_rfl, le_rfl, by decide⟩, by decide⟩

end Abilyo
